import Mathlib

/-!
Verification of the hotstocks pipeline (symbol-mention detection and
trend analysis) against its specification.

The development shallowly embeds the relevant Python code:

* `fetch_stock_mentions_and_posts.py`: the compiled mention regex
  `\b(\$)?(S1|S2|...|Sn)\b` (built by `scan_wsb_mentions`, lines 117-122),
  `find_symbols_in_text` (lines 52-67), and the final `count >= 10` snapshot
  filter (lines 215-227).
* `fetch_and_clean_stock_list.py`: the `special_symbols` set and the rule
  adding a literal dollar sign to special or one-letter symbols (lines 60-99).
* `find_hotstocks.py`: `compare_files` (lines 47-78).
* `extract_hotstock_posts.py`: `find_matching_posts` (lines 115-151).

Machine text is modelled as `List Char`; Python dicts keyed by strings are
modelled as association lists with first-key-wins lookup (Python dict keys
are unique, so this is faithful); Python float division of mention counts
by two is modelled as exact division in `ℚ` (for integer operands below
`2 ^ 53` the Python result is exactly representable, so the comparison
agrees with the exact rational one at every realistic count).

Python builds the union of snapshot keys as a `set`, whose iteration order
depends on the per-process string hash seed (`PYTHONHASHSEED`); the
embedding therefore takes the iteration order as an explicit parameter
ranging over the enumerations of the union (`compareFilesOn`), with
`compare_files` a canonical instance.
-/

/-! ### Mention regex: `\b(\$)?(S1|...|Sn)\b` applied by `find_symbols_in_text` -/

/-- Python word characters for the ASCII texts the scanner handles:
letters, digits, underscore. -/
def isWordChar (c : Char) : Bool := c.isAlphanum || c == '_'

/-- Whether position `i` of the text holds a word character
(out of range counts as non-word). -/
def wordAt (t : List Char) (i : Nat) : Bool :=
  match t.get? i with
  | some c => isWordChar c
  | none => false

/-- Python `\b`: a position is a word boundary when exactly one of the two
adjacent characters is a word character. -/
def isBoundary (t : List Char) (i : Nat) : Bool :=
  (if i == 0 then false else wordAt t (i - 1)) != wordAt t i

/-- Literal match of an alternative (the symbols are `re.escape`d, so each
alternative is a literal string) at position `i` of the text. -/
def litMatchAt (t : List Char) : Nat → List Char → Bool
  | _, [] => true
  | i, c :: cs =>
    match t.get? i with
    | some c2 => c == c2 && litMatchAt t (i + 1) cs
    | none => false

/-- The alternation `(S1|S2|...|Sn)\b`: Python tries the alternatives left to
right and backtracks into the next alternative when the trailing `\b` fails.
Returns the captured alternative and the end position of the match. -/
def tryAlts (t : List Char) (i : Nat) : List (List Char) → Option (List Char × Nat)
  | [] => none
  | a :: rest =>
    if litMatchAt t i a && isBoundary t (i + a.length) then some (a, i + a.length)
    else tryAlts t i rest

/-- One match attempt of `\b(\$)?(S1|...|Sn)\b` at position `i`: the leading
`\b` must hold at `i`; the greedy optional group first tries to consume a
literal dollar sign and backtracks to the empty option when no alternative
completes after it. Returns group 2 (the captured symbol) and the match end. -/
def tryMatchAt (t : List Char) (alts : List (List Char)) (i : Nat) :
    Option (List Char × Nat) :=
  if isBoundary t i then
    if t.get? i == some '$' then
      match tryAlts t (i + 1) alts with
      | some r => some r
      | none => tryAlts t i alts
    else tryAlts t i alts
  else none

/-- The scan loop of `Pattern.findall`: try a match at each position from left
to right; resume after a successful match at its end (one step forward for an
empty match, as Python 3.7+ does). Fuel bounds the recursion; starting fuel
`t.length + 1` covers every position of the text. -/
def scanFrom (t : List Char) (alts : List (List Char)) : Nat → Nat → List (List Char)
  | 0, _ => []
  | fuel + 1, i =>
    if t.length < i then []
    else
      match tryMatchAt t alts i with
      | some (a, j) => a :: scanFrom t alts fuel (if i < j then j else i + 1)
      | none => scanFrom t alts fuel (i + 1)

/-- The compiled pattern: the ordered list of (escaped, hence literal)
alternatives standing between `(` and `)` in `\b(\$)?(...)\b`. -/
structure RePattern where
  alts : List (List Char)
deriving DecidableEq, Repr

/-- The join `"|".join(escaped_symbols)` interpolated into the fixed template:
joining the empty list yields the empty pattern, i.e. one empty alternative
that matches the empty string. -/
def joinAlternation (symbols : List String) : List (List Char) :=
  if symbols.isEmpty then [[]] else symbols.map String.toList

/-- The matcher built by `scan_wsb_mentions` lines 117-122 for a symbol list. -/
def mentionPattern (symbols : List String) : RePattern :=
  { alts := joinAlternation symbols }

/-- Compilation `re.compile(rf"\b(\$)?(S1|...|Sn)\b")`: `re.compile` fails only on
syntactically invalid patterns; every `re.escape`d symbol is a literal atom
and the empty join is the empty alternative, both syntactically valid, so
compilation succeeds for every symbol list (`none` would model `re.error`). -/
def re_compile (symbols : List String) : Option RePattern :=
  some (mentionPattern symbols)

/-- All group-2 captures of `pattern.findall(text, 0)` in scan order
(`find_symbols_in_text` keeps `match[1]` of every tuple). -/
def findallCaptures (p : RePattern) (text : List Char) : List (List Char) :=
  scanFrom text p.alts (text.length + 1) 0

/-- The value `find_symbols_in_text(text, pattern)[symbol]`: the occurrence count that
the returned defaultdict assigns to `symbol` (absent symbols count 0). -/
def find_symbols_in_text (text : String) (p : RePattern) (symbol : String) : Nat :=
  ((findallCaptures p text.toList).map String.mk).count symbol

/-! ### Lexicon dollar-tagging (`fetch_and_clean_stock_list.py` lines 60-99) -/

/-- The fixed `special_symbols` set of tickers colliding with common words. -/
def special_symbols : List String :=
  ["BE", "GO", "IT", "OR", "SO", "NO", "UP", "FOR", "ON", "BY", "AS", "HE",
   "AM", "AN", "AI", "DD", "OP", "ALL", "YOU", "TV", "PM", "HAS", "ARM",
   "ARE", "PUMP", "EOD", "DAY", "WTF", "HIT", "NOW"]

/-- Line 97-99: a symbol is stored with a literal leading dollar sign when it
is one character long or belongs to `special_symbols`. -/
def addDollarIfSpecial (s : String) : String :=
  if s.length = 1 ∨ s ∈ special_symbols then "$" ++ s else s

/-! ### Trend detector (`find_hotstocks.py`, `compare_files` lines 47-78) -/

/-- One value of a snapshot dict: the company display string and the count. -/
structure SnapEntry where
  company : String
  count : Nat
deriving DecidableEq, Repr

/-- A snapshot dict `symbol -> {company, count}` as an association list;
Python dict keys are unique and lookup takes the first binding. -/
abbrev Snapshot := List (String × SnapEntry)

/-- The count that `compare_files` reads for a symbol: the entry's count when
the symbol is present, the default 0 otherwise (lines 59-61). -/
def getCount (d : Snapshot) (s : String) : Nat :=
  match d.lookup s with
  | some e => e.count
  | none => 0

/-- Lookup `data.get(symbol)`. -/
def getEntry (d : Snapshot) (s : String) : Option SnapEntry :=
  d.lookup s

/-- Line 63: `latest_data.get(symbol) or prev_data.get(symbol) or
prev2_data.get(symbol)`. The entry dicts are non-empty, hence truthy, so the
Python `or` chain is exactly `Option.orElse` on the three lookups. -/
def companyChain (latest prev prev2 : Snapshot) (s : String) : Option SnapEntry :=
  (getEntry latest s).orElse fun _ =>
    (getEntry prev s).orElse fun _ => getEntry prev2 s

/-- The keys of a snapshot dict. -/
def snapKeys (d : Snapshot) : List String := d.map Prod.fst

/-- Line 56: `set(latest_data) | set(prev_data) | set(prev2_data)` as a
duplicate-free list of members. The set's iteration order is an artifact of
the process hash seed; functions below take the order as a parameter. -/
def unionSymbols (latest prev prev2 : Snapshot) : List String :=
  (snapKeys latest ++ snapKeys prev ++ snapKeys prev2).dedup

/-- One row of the `hotstocks` result list. -/
structure HotEntry where
  symbol : String
  company : String
  latest : Nat
  prev : Nat
  prev2 : Nat
deriving DecidableEq, Repr

/-- Lines 65-70: `cond1 = latest_val > prev_val` and
`cond2 = latest_val > (prev_val + prev2_val) / 2`. The division is Python
float division of non-negative integers; it is exact for all sums below
`2 ^ 53`, and over the rationals `l > (p + p2) / 2` is equivalent to the
integer comparison `p + p2 < 2 * l` used here so that the condition stays
kernel-computable. The lemma `hotCond_iff_exact_mean` states the equivalence
with the literal rational expression. -/
def hotCond (l p p2 : Nat) : Bool :=
  decide (p < l) || decide (p + p2 < 2 * l)

/-- The company string read in line 63. When all three lookups miss, the
Python raises a `TypeError` (`None` is not subscriptable); that state is
modelled by the empty string and proved unreachable for symbols of the union
(`union_company_resolution_safe`). -/
def companyString (latest prev prev2 : Snapshot) (s : String) : String :=
  match companyChain latest prev prev2 s with
  | some e => e.company
  | none => ""

/-- The body of the loop over the union (lines 58-75) for one symbol:
the appended dict when `cond1 or cond2` holds. -/
def hotRow (latest prev prev2 : Snapshot) (s : String) : Option HotEntry :=
  if hotCond (getCount latest s) (getCount prev s) (getCount prev2 s) then
    some ⟨s, companyString latest prev prev2 s,
      getCount latest s, getCount prev s, getCount prev2 s⟩
  else none

/-- Stable insertion for a descending sort by a `Nat` key: the new element
goes after every already-placed element whose key is at least as large. -/
def insertDescBy (key : α → Nat) (x : α) : List α → List α
  | [] => [x]
  | y :: ys => if key y < key x then x :: y :: ys else y :: insertDescBy key x ys

/-- Python `sorted(l, key=key, reverse=True)`: the stable descending sort by
`key`. Stable sorting is extensionally unique, so this insertion sort computes
exactly the Timsort result. -/
def pySortDescBy (key : α → Nat) (l : List α) : List α :=
  l.foldl (fun acc x => insertDescBy key x acc) []

/-- Function `compare_files` with the union iterated in the explicitly given order
(lines 53-78: build `hotstocks` by appending per union symbol, then
`sorted(hotstocks, key=lambda x: x["latest"], reverse=True)`). -/
def compareFilesOn (order : List String) (latest prev prev2 : Snapshot) :
    List HotEntry :=
  pySortDescBy HotEntry.latest (order.filterMap (hotRow latest prev prev2))

/-- Function `compare_files` at a canonical iteration order of the union. -/
def compare_files (latest prev prev2 : Snapshot) : List HotEntry :=
  compareFilesOn (unionSymbols latest prev prev2) latest prev prev2

/-- Concrete snapshot with two symbols tied on the latest count. -/
def snapTie : Snapshot := [("A", ⟨"Alpha", 5⟩), ("B", ⟨"Beta", 5⟩)]

/-! ### Post extractor (`extract_hotstock_posts.py`, `find_matching_posts`
lines 115-151) -/

/-- The fields of a stored comment that `find_matching_posts` reads. -/
structure RComment where
  id : String
  parent_id : Option String
  found_symbols : List (String × Nat)
deriving DecidableEq, Repr

/-- The fields of a stored post that `find_matching_posts` reads. -/
structure RPost where
  id : String
  found_symbols : List (String × Nat)
  comments : List RComment
deriving DecidableEq, Repr

/-- The keys of a mention dict; the empty dict is falsy, and its guarded
`.keys()` fallback in line 144 is the empty list either way. -/
def symbolKeys (m : List (String × Nat)) : List String := m.map Prod.fst

/-- Lines 143-147, one iteration: the comment is appended to the kept list
when its own mention map contains the target symbol or some already kept
comment has the id its `parent_id` names (a `parent_id` of `None` never
equals a comment id string). -/
def keptStep (s : String) (kept : List RComment) (c : RComment) : List RComment :=
  if s ∈ symbolKeys c.found_symbols ∨ (∃ k ∈ kept, some k.id = c.parent_id) then
    kept ++ [c]
  else kept

/-- The single forward pass over a post's comment list for one target symbol
(the loop of lines 143-147, starting from the reset empty list). -/
def keptComments (s : String) (comments : List RComment) : List RComment :=
  comments.foldl (keptStep s) []

/-- The result dict of `find_matching_posts`: symbol to matching posts. -/
abbrev PostsMap := List (String × List RPost)

/-- Update `matching_posts[s].append(p)` on the dict. -/
def appendPostAt (m : PostsMap) (s : String) (p : RPost) : PostsMap :=
  m.map fun e => if e.1 = s then (e.1, e.2 ++ [p]) else e

/-- The body of the loop over `posts_data` (lines 128-149): the first branch
fires when the post has direct mentions and at least 3 comments and appends
the unmodified post for every target symbol among its direct mentions; the
`elif` fires when the post has any comment and appends, per target symbol, a
copy holding only the kept comments when at least 3 are kept. -/
def processPost (targets : List String) (m : PostsMap) (post : RPost) : PostsMap :=
  if post.found_symbols ≠ [] ∧ 3 ≤ post.comments.length then
    targets.foldl
      (fun acc s =>
        if s ∈ symbolKeys post.found_symbols then appendPostAt acc s post else acc)
      m
  else if post.comments ≠ [] then
    targets.foldl
      (fun acc s =>
        if 3 ≤ (keptComments s post.comments).length then
          appendPostAt acc s { post with comments := keptComments s post.comments }
        else acc)
      m
  else m

/-- Function `find_matching_posts(posts_data, target_symbols)`: the dict starts with an
empty list per target symbol and is filled by one pass over the posts. -/
def find_matching_posts (posts : List RPost) (targets : List String) : PostsMap :=
  posts.foldl (processPost targets) (targets.map fun t => (t, []))

/-- Reading one symbol's list from the result dict. -/
def postsFor (m : PostsMap) (s : String) : List RPost :=
  match m.lookup s with
  | some l => l
  | none => []

/-- The per-symbol qualification rule in the words of spec sections 4.2-4.3,
used as the specification side of the characterization theorem: a post
qualifies when its direct mentions contain the symbol and it has at least 3
comments (kept unmodified), or — when the post has no direct mentions at
all — when at least 3 comments are kept for the symbol (comment list replaced
by the kept subset). -/
def qualifiesSpec (s : String) (p : RPost) : Option RPost :=
  if s ∈ symbolKeys p.found_symbols ∧ 3 ≤ p.comments.length then some p
  else if p.found_symbols = [] ∧ 3 ≤ (keptComments s p.comments).length then
    some { p with comments := keptComments s p.comments }
  else none

/-- Example comments for the relevance-propagation scenarios: `exC1` mentions
the symbol, `exC2` answers `exC1` without a mention, `exC3` answers `exC2`
without a mention. -/
def exC1 : RComment := ⟨"c1", none, [("S", 1)]⟩

/-- See `exC1`. -/
def exC2 : RComment := ⟨"c2", some "c1", []⟩

/-- See `exC1`. -/
def exC3 : RComment := ⟨"c3", some "c2", []⟩

/-- A post whose own mentions name only `X` while all three of its comments
mention `Y`: the first branch of `find_matching_posts` swallows it, so the
comment branch never runs for `Y`. -/
def postXY : RPost :=
  ⟨"p1", [("X", 1)],
    [⟨"k1", none, [("Y", 1)]⟩, ⟨"k2", none, [("Y", 1)]⟩, ⟨"k3", none, [("Y", 1)]⟩]⟩

/-! ### Snapshot filter (`fetch_stock_mentions_and_posts.py` lines 215-240) -/

/-- One row of the saved mentions snapshot. -/
structure MentionRow where
  symbol : String
  company : String
  count : Nat
deriving DecidableEq, Repr

/-- Lines 216-224: keep the symbols whose aggregated count is at least 10 and
attach the company name (`"Unknown Company"` when the symbol is not in the
lexicon map). -/
def filtered_results (total_counts : List (String × Nat))
    (symbol_to_company : List (String × String)) : List MentionRow :=
  total_counts.filterMap fun sc =>
    if 10 ≤ sc.2 then
      some ⟨sc.1, (symbol_to_company.lookup sc.1).getD "Unknown Company", sc.2⟩
    else none

/-- Line 227: the rows written to the snapshot files, sorted by count
descending. -/
def sorted_results (total_counts : List (String × Nat))
    (symbol_to_company : List (String × String)) : List MentionRow :=
  pySortDescBy MentionRow.count (filtered_results total_counts symbol_to_company)

/-! ### Helper lemmas -/

theorem perm_insertDescBy (key : α → Nat) (x : α) (l : List α) :
    List.Perm (insertDescBy key x l) (x :: l) := by
  induction l with
  | nil => exact List.Perm.refl _
  | cons y ys ih =>
    unfold insertDescBy
    split
    · exact List.Perm.refl _
    · exact (List.Perm.cons y ih).trans (List.Perm.swap x y ys)

theorem perm_foldl_insertDescBy (key : α → Nat) :
    ∀ (l acc : List α),
      List.Perm (l.foldl (fun a x => insertDescBy key x a) acc) (acc ++ l) := by
  intro l
  induction l with
  | nil => intro acc; simp
  | cons x xs ih =>
    intro acc
    simp only [List.foldl_cons]
    refine (ih (insertDescBy key x acc)).trans ?_
    refine ((perm_insertDescBy key x acc).append_right xs).trans ?_
    exact List.perm_middle.symm

theorem perm_pySortDescBy (key : α → Nat) (l : List α) :
    List.Perm (pySortDescBy key l) l := by
  simpa using perm_foldl_insertDescBy key l []

theorem sorted_insertDescBy (key : α → Nat) (x : α) (l : List α)
    (h : l.Pairwise (fun a b => key b ≤ key a)) :
    (insertDescBy key x l).Pairwise (fun a b => key b ≤ key a) := by
  induction l with
  | nil => simp [insertDescBy]
  | cons y ys ih =>
    rcases List.pairwise_cons.mp h with ⟨hy, hys⟩
    unfold insertDescBy
    split
    · rename_i hlt
      refine List.pairwise_cons.mpr ⟨?_, h⟩
      intro z hz
      rcases List.mem_cons.mp hz with rfl | hz'
      · exact Nat.le_of_lt hlt
      · exact le_trans (hy z hz') (Nat.le_of_lt hlt)
    · rename_i hnlt
      refine List.pairwise_cons.mpr ⟨?_, ih hys⟩
      intro z hz
      rcases List.mem_cons.mp ((perm_insertDescBy key x ys).mem_iff.mp hz) with rfl | hz'
      · exact Nat.le_of_not_lt hnlt
      · exact hy z hz'

theorem sorted_foldl_insertDescBy (key : α → Nat) :
    ∀ (l acc : List α), acc.Pairwise (fun a b => key b ≤ key a) →
      (l.foldl (fun a x => insertDescBy key x a) acc).Pairwise
        (fun a b => key b ≤ key a) := by
  intro l
  induction l with
  | nil => intro acc h; simpa using h
  | cons x xs ih =>
    intro acc h
    simp only [List.foldl_cons]
    exact ih _ (sorted_insertDescBy key x acc h)

theorem sorted_pySortDescBy (key : α → Nat) (l : List α) :
    (pySortDescBy key l).Pairwise (fun a b => key b ≤ key a) :=
  sorted_foldl_insertDescBy key l [] List.Pairwise.nil

theorem lookup_cons_pm {β : Type _} (k : String) (v : β) (rest : List (String × β))
    (s : String) :
    List.lookup s ((k, v) :: rest) = if s = k then some v else List.lookup s rest := by
  cases hbe : s == k
  · have hne : ¬s = k := by simpa using hbe
    simp [List.lookup, hbe, hne]
  · have heq : s = k := by simpa using hbe
    simp [List.lookup, hbe, heq]

theorem lookup_isSome_of_mem_fst {β : Type _} (s : String) :
    ∀ d : List (String × β), s ∈ d.map Prod.fst → (d.lookup s).isSome = true := by
  intro d
  induction d with
  | nil => simp
  | cons kv rest ih =>
    intro h
    rcases kv with ⟨k, v⟩
    simp only [List.map_cons] at h
    rw [lookup_cons_pm]
    rcases List.mem_cons.mp h with rfl | h'
    · simp
    · by_cases hk : s = k
      · simp [hk]
      · rw [if_neg hk]; exact ih h'

theorem hotCond_iff_exact_mean (l p p2 : Nat) :
    hotCond l p p2 = true ↔
      (p < l ∨ ((p : ℚ) + (p2 : ℚ)) / 2 < (l : ℚ)) := by
  have h2 : (((p : ℚ) + (p2 : ℚ)) / 2 < (l : ℚ)) ↔ p + p2 < 2 * l := by
    rw [div_lt_iff₀ (by norm_num : (0 : ℚ) < 2)]
    constructor
    · intro h
      have : ((p + p2 : ℕ) : ℚ) < ((2 * l : ℕ) : ℚ) := by push_cast; linarith
      exact_mod_cast this
    · intro h
      have : ((p + p2 : ℕ) : ℚ) < ((2 * l : ℕ) : ℚ) := by exact_mod_cast h
      push_cast at this; linarith
  unfold hotCond
  simp only [Bool.or_eq_true, decide_eq_true_eq]
  rw [h2]

theorem hotRow_symbol {latest prev prev2 : Snapshot} {s : String} {e : HotEntry}
    (h : hotRow latest prev prev2 s = some e) : e.symbol = s := by
  unfold hotRow at h
  by_cases hc : hotCond (getCount latest s) (getCount prev s) (getCount prev2 s) = true
  · rw [if_pos hc] at h
    cases h
    rfl
  · rw [if_neg hc] at h
    cases h

theorem hotRow_isSome_iff (latest prev prev2 : Snapshot) (s : String) :
    (hotRow latest prev prev2 s).isSome = true ↔
      hotCond (getCount latest s) (getCount prev s) (getCount prev2 s) = true := by
  unfold hotRow
  by_cases hc : hotCond (getCount latest s) (getCount prev s) (getCount prev2 s) = true
  · rw [if_pos hc]
    simp [hc]
  · rw [if_neg hc]
    simpa using hc

theorem map_symbol_filterMap_hotRow (latest prev prev2 : Snapshot) :
    ∀ order : List String,
      (order.filterMap (hotRow latest prev prev2)).map HotEntry.symbol =
        order.filter (fun s => (hotRow latest prev prev2 s).isSome) := by
  intro order
  induction order with
  | nil => rfl
  | cons s rest ih =>
    cases h : hotRow latest prev prev2 s with
    | none => simp [List.filterMap_cons, List.filter_cons, h, ih]
    | some e =>
      have hsym : e.symbol = s := hotRow_symbol h
      simp [List.filterMap_cons, List.filter_cons, h, ih, hsym]

theorem keptComments_snoc (s : String) (cs : List RComment) (c : RComment) :
    keptComments s (cs ++ [c]) =
      keptComments s cs ++
        (if s ∈ symbolKeys c.found_symbols ∨
            (∃ k ∈ keptComments s cs, some k.id = c.parent_id)
          then [c] else []) := by
  unfold keptComments
  rw [List.foldl_append]
  simp only [List.foldl_cons, List.foldl_nil]
  unfold keptStep
  split
  · rfl
  · simp

theorem keptComments_foldl_length (s : String) :
    ∀ (cs acc : List RComment),
      (cs.foldl (keptStep s) acc).length ≤ acc.length + cs.length := by
  intro cs
  induction cs with
  | nil => intro acc; simp
  | cons c rest ih =>
    intro acc
    simp only [List.foldl_cons, List.length_cons]
    refine le_trans (ih (keptStep s acc c)) ?_
    have hstep : (keptStep s acc c).length ≤ acc.length + 1 := by
      unfold keptStep
      split
      · simp
      · exact Nat.le_succ _
    omega

theorem keptComments_length_le (s : String) (cs : List RComment) :
    (keptComments s cs).length ≤ cs.length := by
  simpa using keptComments_foldl_length s cs []

theorem lookup_appendPostAt_self {m : PostsMap} {s : String} {L : List RPost}
    (p : RPost) (h : m.lookup s = some L) :
    (appendPostAt m s p).lookup s = some (L ++ [p]) := by
  induction m with
  | nil => simp at h
  | cons e rest ih =>
    rcases e with ⟨k, v⟩
    simp only [appendPostAt, List.map_cons] at ih ⊢
    rw [lookup_cons_pm] at h
    by_cases hk : k = s
    · rw [if_pos hk.symm] at h
      cases h
      rw [if_pos hk, lookup_cons_pm, if_pos hk.symm]
    · have hs : ¬s = k := fun h' => hk h'.symm
      rw [if_neg hs] at h
      rw [if_neg hk, lookup_cons_pm, if_neg hs]
      exact ih h

theorem lookup_appendPostAt_ne {m : PostsMap} {s t : String} (p : RPost)
    (hne : t ≠ s) : (appendPostAt m t p).lookup s = m.lookup s := by
  induction m with
  | nil => rfl
  | cons e rest ih =>
    rcases e with ⟨k, v⟩
    simp only [appendPostAt, List.map_cons] at ih ⊢
    by_cases hk : k = t
    · rw [if_pos hk]
      have hs : ¬s = k := fun h' => hne ((h'.trans hk).symm)
      rw [lookup_cons_pm, lookup_cons_pm, if_neg hs, if_neg hs]
      exact ih
    · rw [if_neg hk]
      rw [lookup_cons_pm, lookup_cons_pm]
      by_cases hs : s = k
      · rw [if_pos hs, if_pos hs]
      · rw [if_neg hs, if_neg hs]
        exact ih

theorem lookup_foldl_no_touch (step : PostsMap → String → PostsMap)
    (C : String → Prop) [DecidablePred C] (g : String → RPost)
    (hstep : ∀ acc t, step acc t = if C t then appendPostAt acc t (g t) else acc)
    (s : String) :
    ∀ (targets : List String) (m : PostsMap), s ∉ targets →
      (targets.foldl step m).lookup s = m.lookup s := by
  intro targets
  induction targets with
  | nil => intro m _; rfl
  | cons t ts ih =>
    intro m hs
    have hts : s ∉ ts := fun h => hs (List.mem_cons_of_mem _ h)
    have hne : t ≠ s := fun h => hs (h ▸ List.mem_cons_self t ts)
    simp only [List.foldl_cons]
    rw [ih _ hts, hstep]
    split
    · exact lookup_appendPostAt_ne _ hne
    · rfl

theorem lookup_foldl_cond_append (step : PostsMap → String → PostsMap)
    (C : String → Prop) [DecidablePred C] (g : String → RPost)
    (hstep : ∀ acc t, step acc t = if C t then appendPostAt acc t (g t) else acc)
    (s : String) :
    ∀ (targets : List String) (m : PostsMap) (L : List RPost),
      targets.Nodup → m.lookup s = some L →
      (targets.foldl step m).lookup s =
        some (L ++ if s ∈ targets ∧ C s then [g s] else []) := by
  intro targets
  induction targets with
  | nil =>
    intro m L _ hm
    simpa using hm
  | cons t ts ih =>
    intro m L hnd hm
    rcases List.nodup_cons.mp hnd with ⟨htts, hnd'⟩
    simp only [List.foldl_cons]
    by_cases hts : t = s
    · subst hts
      have h1 : (step m t).lookup t = some (L ++ if C t then [g t] else []) := by
        rw [hstep]
        split
        · exact lookup_appendPostAt_self _ hm
        · simpa using hm
      rw [lookup_foldl_no_touch step C g hstep t ts (step m t) htts, h1]
      by_cases hc : C t <;> simp [hc, List.mem_cons_self]
    · have h1 : (step m t).lookup s = some L := by
        rw [hstep]
        split
        · rw [lookup_appendPostAt_ne _ hts]
          exact hm
        · exact hm
      rw [ih _ _ hnd' h1]
      have hmemiff : (s ∈ t :: ts) ↔ s ∈ ts := by
        constructor
        · intro h
          rcases List.mem_cons.mp h with h' | h'
          · exact absurd h'.symm hts
          · exact h'
        · exact List.mem_cons_of_mem t
      by_cases hmem : s ∈ ts <;> by_cases hc : C s <;>
        simp [hmem, hc, hmemiff]

theorem lookup_processPost (targets : List String) (post : RPost) (s : String)
    (m : PostsMap) (L : List RPost) (hnd : targets.Nodup) (hs : s ∈ targets)
    (hm : m.lookup s = some L) :
    (processPost targets m post).lookup s =
      some (L ++ (qualifiesSpec s post).toList) := by
  unfold processPost
  split
  · rename_i hguard
    rw [lookup_foldl_cond_append _ (fun t => t ∈ symbolKeys post.found_symbols)
      (fun _ => post) (fun _ _ => rfl) s targets m L hnd hm]
    by_cases hk : s ∈ symbolKeys post.found_symbols
    · have hq : qualifiesSpec s post = some post := by
        unfold qualifiesSpec
        rw [if_pos ⟨hk, hguard.2⟩]
      rw [hq]
      simp [hs, hk]
    · have hq : qualifiesSpec s post = none := by
        unfold qualifiesSpec
        rw [if_neg fun h => hk h.1, if_neg fun h => hguard.1 h.1]
      rw [hq]
      simp [hk]
  · split
    · rename_i hguard hcm
      rw [lookup_foldl_cond_append _
        (fun t => 3 ≤ (keptComments t post.comments).length)
        (fun t => { post with comments := keptComments t post.comments })
        (fun _ _ => rfl) s targets m L hnd hm]
      by_cases hk : 3 ≤ (keptComments s post.comments).length
      · have hlen : 3 ≤ post.comments.length :=
          le_trans hk (keptComments_length_le s post.comments)
        have hfound : post.found_symbols = [] := by
          by_contra hf
          exact hguard ⟨hf, hlen⟩
        have hn1 : ¬(s ∈ symbolKeys post.found_symbols ∧ 3 ≤ post.comments.length) := by
          intro h
          rcases h with ⟨hmem, _⟩
          rw [hfound] at hmem
          simp [symbolKeys] at hmem
        have hq : qualifiesSpec s post =
            some { post with comments := keptComments s post.comments } := by
          unfold qualifiesSpec
          rw [if_neg hn1, if_pos ⟨hfound, hk⟩]
        rw [hq]
        simp [hs, hk]
      · have hn2 : ¬(post.found_symbols = [] ∧
            3 ≤ (keptComments s post.comments).length) := fun h => hk h.2
        have hn1 : ¬(s ∈ symbolKeys post.found_symbols ∧
            3 ≤ post.comments.length) := by
          intro h
          rcases h with ⟨hmem, hlen2⟩
          apply hguard
          refine ⟨?_, hlen2⟩
          intro hf
          rw [hf] at hmem
          simp [symbolKeys] at hmem
        have hq : qualifiesSpec s post = none := by
          unfold qualifiesSpec
          rw [if_neg hn1, if_neg hn2]
        rw [hq]
        simp [hk]
    · rename_i hguard hcm
      have hcm' : post.comments = [] := not_not.mp hcm
      have hn1 : ¬(s ∈ symbolKeys post.found_symbols ∧ 3 ≤ post.comments.length) := by
        intro h
        rcases h with ⟨_, hlen⟩
        rw [hcm'] at hlen
        simp at hlen
      have hn2 : ¬(post.found_symbols = [] ∧
          3 ≤ (keptComments s post.comments).length) := by
        intro h
        rcases h with ⟨_, hlen⟩
        rw [hcm'] at hlen
        simp [keptComments] at hlen
      have hq : qualifiesSpec s post = none := by
        unfold qualifiesSpec
        rw [if_neg hn1, if_neg hn2]
      rw [hm, hq]
      simp

theorem lookup_init_targets (s : String) :
    ∀ targets : List String, s ∈ targets →
      (targets.map fun t => (t, ([] : List RPost))).lookup s = some [] := by
  intro targets
  induction targets with
  | nil => intro h; simp at h
  | cons t ts ih =>
    intro hs
    simp only [List.map_cons]
    rw [lookup_cons_pm]
    by_cases h : s = t
    · rw [if_pos h]
    · rw [if_neg h]
      refine ih ?_
      rcases List.mem_cons.mp hs with h' | h'
      · exact absurd h' h
      · exact h'

theorem find_matching_posts_foldl (targets : List String) (s : String)
    (hnd : targets.Nodup) (hs : s ∈ targets) :
    ∀ (posts : List RPost) (m : PostsMap) (L : List RPost),
      m.lookup s = some L →
      (posts.foldl (processPost targets) m).lookup s =
        some (L ++ posts.filterMap (qualifiesSpec s)) := by
  intro posts
  induction posts with
  | nil =>
    intro m L hm
    simpa using hm
  | cons p ps ih =>
    intro m L hm
    simp only [List.foldl_cons]
    rw [ih _ _ (lookup_processPost targets p s m L hnd hs hm), List.filterMap_cons]
    cases hq : qualifiesSpec s p <;> simp [hq]

/-! ### Claim theorems -/

/-- C1: for a lexicon symbol flagged as requiring a dollar sign (stored with
the literal dollar, here GO stored via the cleaner as the 4-character string
starting with the dollar sign), the spec requires the extractor to count the
bare text GO zero times and the dollar-prefixed text exactly once. The code
meets the first half but not the second: the leading word boundary of the
compiled regex demands a word character immediately before the dollar sign,
which the preceding space is not, so the dollar-prefixed mention also counts
zero. This theorem evaluates the embedded extractor at the failing input. -/
theorem dollar_prefix_failing_input_eval :
    addDollarIfSpecial "GO" = "$GO" ∧
      find_symbols_in_text "I will GO now"
        (mentionPattern [addDollarIfSpecial "GO"]) "$GO" = 0 ∧
      find_symbols_in_text "I will $GO now"
        (mentionPattern [addDollarIfSpecial "GO"]) "$GO" = 0 := by
  refine ⟨by decide, by decide, by decide⟩

/-- C2: a symbol appears in the output of `compare_files` (run with any
iteration order of the union set) exactly when it occurs in at least one of
the three snapshots and, with counts defaulting to 0, the latest count
strictly exceeds the previous count or strictly exceeds the exact rational
mean of the two previous counts. -/
theorem compare_files_membership_iff
    (order : List String) (latest prev prev2 : Snapshot) (s : String)
    (horder : List.Perm order (unionSymbols latest prev prev2)) :
    (∃ e ∈ compareFilesOn order latest prev prev2, e.symbol = s) ↔
      (s ∈ unionSymbols latest prev prev2 ∧
        (getCount prev s < getCount latest s ∨
          ((getCount prev s : ℚ) + (getCount prev2 s : ℚ)) / 2
            < (getCount latest s : ℚ))) := by
  unfold compareFilesOn
  have hsortperm := perm_pySortDescBy HotEntry.latest
    (order.filterMap (hotRow latest prev prev2))
  constructor
  · rintro ⟨e, he, rfl⟩
    have he' : e ∈ order.filterMap (hotRow latest prev prev2) :=
      hsortperm.mem_iff.mp he
    rcases List.mem_filterMap.mp he' with ⟨x, hx, hfx⟩
    have hxs : e.symbol = x := hotRow_symbol hfx
    rw [hxs]
    constructor
    · exact horder.mem_iff.mp hx
    · have hsome : (hotRow latest prev prev2 x).isSome = true := by
        rw [hfx]; rfl
      exact (hotCond_iff_exact_mean _ _ _).mp
        ((hotRow_isSome_iff latest prev prev2 x).mp hsome)
  · rintro ⟨hmem, hcond⟩
    have hcond' : hotCond (getCount latest s) (getCount prev s)
        (getCount prev2 s) = true := (hotCond_iff_exact_mean _ _ _).mpr hcond
    have hsome := (hotRow_isSome_iff latest prev prev2 s).mpr hcond'
    rcases Option.isSome_iff_exists.mp hsome with ⟨e, he⟩
    refine ⟨e, hsortperm.mem_iff.mpr ?_, hotRow_symbol he⟩
    exact List.mem_filterMap.mpr ⟨s, horder.mem_iff.mpr hmem, he⟩

/-- C2 witness: the membership characterization applied to a concrete
snapshot triple and symbol. -/
theorem compare_files_membership_iff_witness :
    (∃ e ∈ compareFilesOn (unionSymbols snapTie [] []) snapTie [] [],
        e.symbol = "A") ↔
      ("A" ∈ unionSymbols snapTie [] [] ∧
        (getCount ([] : Snapshot) "A" < getCount snapTie "A" ∨
          ((getCount ([] : Snapshot) "A" : ℚ) + (getCount ([] : Snapshot) "A" : ℚ)) / 2
            < (getCount snapTie "A" : ℚ))) :=
  compare_files_membership_iff (unionSymbols snapTie [] []) snapTie [] [] "A"
    (List.Perm.refl _)

/-- C3 counterexample: the claim says matcher construction from the empty
lexicon fails fast, but the embedded `re.compile` of the joined-alternation
template succeeds on the empty symbol list and returns a matcher. -/
theorem empty_lexicon_counterexample :
    re_compile [] ≠ none ∧ re_compile [] = some (mentionPattern []) :=
  ⟨by decide, rfl⟩

/-- C3 amended: constructing the matcher never fails, for the empty lexicon
included; the empty lexicon yields a usable (degenerate) matcher whose symbol
group matches the empty string at each word boundary, as the two empty
captures on the two-letter text show. -/
theorem matcher_construction_total :
    (∀ symbols : List String, (re_compile symbols).isSome = true) ∧
      (findallCaptures (mentionPattern []) "hi".toList).map String.mk =
        ["", ""] :=
  ⟨fun _ => rfl, by decide⟩

/-- C4: filtering a post's comment list for a target symbol is the single
forward pass in the given order that keeps a comment exactly when its own
mention map contains the symbol or its parent id is already among the kept
comments (the appended-comment characterization below), so the in-order
chain `exC1, exC2, exC3` is kept entirely while the reordered chain
`exC2, exC1, exC3` drops `exC2`, whose parent is not yet kept at its
position. -/
theorem comment_filter_single_pass :
    (∀ (s : String) (cs : List RComment) (c : RComment),
        keptComments s (cs ++ [c]) =
          keptComments s cs ++
            (if s ∈ symbolKeys c.found_symbols ∨
                (∃ k ∈ keptComments s cs, some k.id = c.parent_id)
              then [c] else [])) ∧
      keptComments "S" [exC1, exC2, exC3] = [exC1, exC2, exC3] ∧
      keptComments "S" [exC2, exC1, exC3] = [exC1] :=
  ⟨keptComments_snoc, by decide, by decide⟩

/-- C5 counterexample: for `postXY` (direct mention of X only, three comments
all mentioning Y) the claim's second branch condition holds for Y — the first
branch does not apply to Y and the kept-comment count for Y is 3 — yet the
code places no post in the matching list of Y, because the first branch's
guard (some direct mention and at least 3 comments) swallows the post for
every symbol. -/
theorem find_matching_posts_counterexample :
    ¬ ("Y" ∈ symbolKeys postXY.found_symbols ∧ 3 ≤ postXY.comments.length) ∧
      3 ≤ (keptComments "Y" postXY.comments).length ∧
      postsFor (find_matching_posts [postXY] ["X", "Y"]) "Y" = [] :=
  ⟨by decide, by decide, by decide⟩

/-- C5 amended: for each target symbol, the matching list is exactly the
posts passing `qualifiesSpec`: kept unmodified when the post's own mentions
contain the symbol and it has at least 3 comments, trimmed to the kept subset
when the post has no direct mentions at all and at least 3 comments are kept;
a post with direct mentions of other symbols and at least 3 comments is never
matched to a symbol outside its own mention map. -/
theorem find_matching_posts_characterization
    (posts : List RPost) (targets : List String) (s : String)
    (hnd : targets.Nodup) (hs : s ∈ targets) :
    postsFor (find_matching_posts posts targets) s =
      posts.filterMap (qualifiesSpec s) := by
  unfold postsFor find_matching_posts
  rw [find_matching_posts_foldl targets s hnd hs posts _ []
    (lookup_init_targets s targets hs)]
  simp

/-- C5 witness: the characterization applied to a concrete post list and
target symbol. -/
theorem find_matching_posts_characterization_witness :
    postsFor (find_matching_posts [postXY] ["X", "Y"]) "X" =
      [postXY].filterMap (qualifiesSpec "X") :=
  find_matching_posts_characterization [postXY] ["X", "Y"] "X"
    (by decide) (by decide)

theorem tryAlts_boundary :
    ∀ (alts : List (List Char)) (t : List Char) (i : Nat) (a : List Char) (j : Nat),
      tryAlts t i alts = some (a, j) → isBoundary t j = true := by
  intro alts
  induction alts with
  | nil =>
    intro t i a j h
    simp [tryAlts] at h
  | cons x rest ih =>
    intro t i a j h
    unfold tryAlts at h
    split at h
    · rename_i hcond
      cases h
      have hcond2 : litMatchAt t i x = true ∧ isBoundary t (i + x.length) = true := by
        simpa using hcond
      exact hcond2.2
    · exact ih t i a j h

/-- C6: a symbol occurrence is counted only at word boundaries on both sides.
The general conjunct shows every successful match attempt starts and ends at
a word boundary; the concrete conjuncts show the three-letter text does not
count the two-letter symbol IT inside ITS, and that with both AB and ABC in
the lexicon (in either order) the text ABC counts ABC once and AB never. -/
theorem word_boundary_matching :
    (∀ (t : List Char) (alts : List (List Char)) (i : Nat) (a : List Char) (j : Nat),
        tryMatchAt t alts i = some (a, j) →
          isBoundary t i = true ∧ isBoundary t j = true) ∧
      find_symbols_in_text "ITS" (mentionPattern ["IT"]) "IT" = 0 ∧
      (∀ syms : List String, syms = ["AB", "ABC"] ∨ syms = ["ABC", "AB"] →
        find_symbols_in_text "ABC" (mentionPattern syms) "ABC" = 1 ∧
          find_symbols_in_text "ABC" (mentionPattern syms) "AB" = 0) := by
  refine ⟨?_, by decide, ?_⟩
  · intro t alts i a j h
    unfold tryMatchAt at h
    split at h
    · rename_i hb
      refine ⟨hb, ?_⟩
      split at h
      · split at h
        · rename_i r hr
          cases h
          exact tryAlts_boundary alts t (i + 1) a j hr
        · exact tryAlts_boundary alts t i a j h
      · exact tryAlts_boundary alts t i a j h
    · exact absurd h (by simp)
  · intro syms hsyms
    rcases hsyms with rfl | rfl
    · exact ⟨by decide, by decide⟩
    · exact ⟨by decide, by decide⟩

/-- C6 witness: the boundary conjunct applied to the successful match of ABC
at position 0, and the overlap conjunct applied to the first lexicon order. -/
theorem word_boundary_matching_witness :
    (isBoundary "ABC".toList 0 = true ∧ isBoundary "ABC".toList 3 = true) ∧
      (find_symbols_in_text "ABC" (mentionPattern ["AB", "ABC"]) "ABC" = 1 ∧
        find_symbols_in_text "ABC" (mentionPattern ["AB", "ABC"]) "AB" = 0) :=
  ⟨word_boundary_matching.1 "ABC".toList (joinAlternation ["AB", "ABC"]) 0
      "ABC".toList 3 (by decide),
    word_boundary_matching.2.2 ["AB", "ABC"] (Or.inl rfl)⟩

theorem nodup_unionSymbols (a b c : Snapshot) : (unionSymbols a b c).Nodup := by
  unfold unionSymbols
  exact List.nodup_dedup _

/-- C7: for every snapshot triple and every iteration order of the union,
the returned list is sorted in non-increasing order of the latest count and
no symbol appears in it more than once. -/
theorem compare_files_sorted_and_nodup
    (order : List String) (latest prev prev2 : Snapshot)
    (horder : List.Perm order (unionSymbols latest prev prev2)) :
    (compareFilesOn order latest prev prev2).Pairwise
        (fun a b => b.latest ≤ a.latest) ∧
      ((compareFilesOn order latest prev prev2).map HotEntry.symbol).Nodup := by
  unfold compareFilesOn
  constructor
  · exact sorted_pySortDescBy HotEntry.latest _
  · have hperm := (perm_pySortDescBy HotEntry.latest
      (order.filterMap (hotRow latest prev prev2))).map HotEntry.symbol
    refine hperm.nodup_iff.mpr ?_
    rw [map_symbol_filterMap_hotRow]
    exact (horder.nodup_iff.mpr (nodup_unionSymbols latest prev prev2)).filter _

/-- C7 witness: sortedness and symbol uniqueness at a concrete triple. -/
theorem compare_files_sorted_and_nodup_witness :
    (compareFilesOn (unionSymbols snapTie [] []) snapTie [] []).Pairwise
        (fun a b => b.latest ≤ a.latest) ∧
      ((compareFilesOn (unionSymbols snapTie [] []) snapTie [] []).map
          HotEntry.symbol).Nodup :=
  compare_files_sorted_and_nodup (unionSymbols snapTie [] []) snapTie [] []
    (List.Perm.refl _)

/-- C8 counterexample: two valid iteration orders of the same union set (the
set iteration order varies with the interpreter hash seed across runs) give
different result lists for the same snapshot inputs when two symbols tie on
the latest count, so run-to-run output identity fails as claimed. -/
theorem compare_files_tie_order_counterexample :
    List.Perm ["A", "B"] (unionSymbols snapTie [] []) ∧
      List.Perm ["B", "A"] (unionSymbols snapTie [] []) ∧
      compareFilesOn ["A", "B"] snapTie [] [] ≠
        compareFilesOn ["B", "A"] snapTie [] [] :=
  ⟨by decide, by decide, by decide⟩

/-- C8 amended: for a fixed iteration order the output is a function of the
inputs, and any two runs (any two valid iteration orders of the union)
produce the same entries up to the relative order of entries tied on the
latest count: the result lists are permutations of each other, each sorted
descending (see the sortedness theorem). -/
theorem compare_files_run_to_run_perm
    (o1 o2 : List String) (latest prev prev2 : Snapshot)
    (h1 : List.Perm o1 (unionSymbols latest prev prev2))
    (h2 : List.Perm o2 (unionSymbols latest prev prev2)) :
    List.Perm (compareFilesOn o1 latest prev prev2)
      (compareFilesOn o2 latest prev prev2) := by
  unfold compareFilesOn
  have h4 := (h1.trans h2.symm).filterMap (hotRow latest prev prev2)
  exact (perm_pySortDescBy _ _).trans (h4.trans (perm_pySortDescBy _ _).symm)

/-- C8 witness: the permutation statement at the two concrete orders of the
tie example. -/
theorem compare_files_run_to_run_perm_witness :
    List.Perm (compareFilesOn ["A", "B"] snapTie [] [])
      (compareFilesOn ["B", "A"] snapTie [] []) :=
  compare_files_run_to_run_perm ["A", "B"] ["B", "A"] snapTie [] []
    (by decide) (by decide)

/-- C9: every row of the saved mentions snapshot has a count of at least 10;
symbols below the threshold are dropped by the filter before saving. -/
theorem saved_mentions_count_ge_ten
    (total_counts : List (String × Nat))
    (symbol_to_company : List (String × String)) (e : MentionRow)
    (he : e ∈ sorted_results total_counts symbol_to_company) :
    10 ≤ e.count := by
  unfold sorted_results at he
  have he' : e ∈ filtered_results total_counts symbol_to_company :=
    (perm_pySortDescBy MentionRow.count _).mem_iff.mp he
  unfold filtered_results at he'
  rcases List.mem_filterMap.mp he' with ⟨sc, _, hsc⟩
  by_cases h10 : 10 ≤ sc.2
  · rw [if_pos h10] at hsc
    cases hsc
    exact h10
  · rw [if_neg h10] at hsc
    cases hsc

/-- C9 witness: the threshold invariant applied to a concrete saved row. -/
theorem saved_mentions_count_ge_ten_witness :
    10 ≤ (⟨"B", "Bco", 12⟩ : MentionRow).count :=
  saved_mentions_count_ge_ten [("A", 3), ("B", 12), ("C", 10)] [("B", "Bco")]
    ⟨"B", "Bco", 12⟩ (by decide)

/-- C10: for every symbol of the union of the three snapshot key sets, the
company-resolution chain of `compare_files` line 63 resolves to an entry, so
the subscript of the Python `or` chain never dereferences `None`. -/
theorem union_company_resolution_safe
    (latest prev prev2 : Snapshot) (s : String)
    (hs : s ∈ unionSymbols latest prev prev2) :
    (companyChain latest prev prev2 s).isSome = true := by
  unfold unionSymbols snapKeys at hs
  rw [List.mem_dedup, List.mem_append, List.mem_append] at hs
  unfold companyChain
  cases h1 : getEntry latest s with
  | some e => simp [Option.orElse]
  | none =>
    cases h2 : getEntry prev s with
    | some e => simp [Option.orElse]
    | none =>
      cases h3 : getEntry prev2 s with
      | some e => simp [Option.orElse]
      | none =>
        exfalso
        unfold getEntry at h1 h2 h3
        rcases hs with (hA | hB) | hC
        · have hsome := lookup_isSome_of_mem_fst s latest hA
          rw [h1] at hsome
          simp at hsome
        · have hsome := lookup_isSome_of_mem_fst s prev hB
          rw [h2] at hsome
          simp at hsome
        · have hsome := lookup_isSome_of_mem_fst s prev2 hC
          rw [h3] at hsome
          simp at hsome

/-- C10 witness: the resolution chain applied to a concrete union symbol. -/
theorem union_company_resolution_safe_witness :
    (companyChain snapTie [] [] "A").isSome = true :=
  union_company_resolution_safe snapTie [] [] "A" (by decide)
